import Mathlib

/-!
# Verification of the TradeSignalFlux pipeline (src/main.py)

Shallow embedding of the news-trading pipeline: the response parser
(`_parse_analysis`), article fingerprinting (`_generate_article_id`),
the per-article processing step (`_process_article`), the run loop over
cycles (`run`), the fetcher with retry (`_fetch_news_for_category`,
`_fetch_news`), and the persisted dedup store
(`_load_processed_articles`, `_save_processed_articles`).

External collaborators (the HTTP session, the hashlib md5 digest, the
remote analyzer, the Telegram endpoint, the file system) are modelled as
oracle parameters; everything the source itself computes is translated
directly.

Strings are modelled as Lean `String`/`List Char`; Python's `re` module
semantics for the six concrete patterns in `_parse_analysis` are encoded
as explicit backtracking matchers (leftmost search; greedy `\s*` tried
longest-first; lazy `.*?` tried shortest-first; `.` excludes newline;
`$` matches at the end of the text or before a final trailing newline;
`re.IGNORECASE` compares characters after `Char.toLower`).  Whitespace
is modelled at ASCII granularity (space, tab, newline, carriage return,
vertical tab, form feed), matching Python's `\s` on ASCII text.
-/

set_option maxRecDepth 10000

/-- Python `\s` on ASCII characters (used by `\s*` in the patterns and by
`str.strip()`). -/
def isPySpace (c : Char) : Bool :=
  c = ' ' || c = '\t' || c = '\n' || c = '\r' || c = '\x0b' || c = '\x0c'

/-- Case-insensitive prefix test: does `text` start with `pat`, comparing
characters lower-cased (Python `re.IGNORECASE`)? -/
def startsWithCI : List Char → List Char → Bool
  | [], _ => true
  | _ :: _, [] => false
  | p :: ps, c :: cs => decide (p.toLower = c.toLower) && startsWithCI ps cs

/-- Length of the maximal whitespace prefix (the text consumed by a greedy
`\s*`). -/
def wsLen : List Char → Nat
  | [] => 0
  | c :: cs => if isPySpace c then wsLen cs + 1 else 0

/-- Drop leading whitespace. -/
def stripLeftWs (cs : List Char) : List Char := cs.drop (wsLen cs)

/-- Python `str.strip()`: drop whitespace from both ends. -/
def pyStrip (cs : List Char) : List Char :=
  (stripLeftWs (stripLeftWs cs).reverse).reverse

/-- `re.search` position scan: try the pattern at each start position from
the left, including the position at the end of the text; first success
wins (leftmost match). -/
def searchFrom {α : Type} (attempt : List Char → Option α) : List Char → Option α
  | [] => attempt []
  | c :: cs =>
    match attempt (c :: cs) with
    | some r => some r
    | none => searchFrom attempt cs

/-- Greedy `\s*` followed by `body`: try consuming `k` whitespace
characters, longest first, backtracking down to zero. Callers pass
`k = wsLen cs` so every tried prefix is whitespace. -/
def tryWsFrom {α : Type} (body : List Char → Option α) (cs : List Char) : Nat → Option α
  | 0 => body cs
  | k + 1 =>
    match body (cs.drop (k + 1)) with
    | some r => some r
    | none => tryWsFrom body cs k

/-- `\s*` (greedy, with backtracking) then `body`. -/
def afterLabel {α : Type} (body : List Char → Option α) (cs : List Char) : Option α :=
  tryWsFrom body cs (wsLen cs)

/-- A pattern of the shape `label\s*<body>` attempted at one position:
the literal label matched case-insensitively, then `\s*`, then the body. -/
def attemptLabeled {α : Type} (label : List Char) (body : List Char → Option α)
    (cs : List Char) : Option α :=
  if startsWithCI label cs then afterLabel body (cs.drop label.length) else none

/-- A capturing alternation of literal words `(w1|w2|...)`, matched
case-insensitively; the captured group keeps the original text's case. -/
def matchAltCI : List (List Char) → List Char → Option (List Char)
  | [], _ => none
  | a :: rest, cs =>
    if startsWithCI a cs then some (cs.take a.length) else matchAltCI rest cs

/-- Lazy `(.*?)(?=look)`: expand the group one non-newline character at a
time, shortest first, until the lookahead `look` holds at the stop
position; returns the group and the remaining suffix at the stop
position. -/
def lazyDotUntil (look : List Char → Bool) : List Char → Option (List Char × List Char)
  | [] => if look [] then some ([], []) else none
  | c :: rest =>
    if look (c :: rest) then some ([], c :: rest)
    else if c = '\n' then none
    else
      match lazyDotUntil look rest with
      | some (g, t) => some (c :: g, t)
      | none => none

/-- Python `$` (no `re.MULTILINE`): end of text, or just before a final
trailing newline. -/
def endLook (t : List Char) : Bool := decide (t = []) || decide (t = ['\n'])

/-- The lookahead `(?=\s*Ticker:|$)` of the `Why` pattern. Inside the
lookahead `\s*` is greedy; since `Ticker:` starts with a non-whitespace
character, only the maximal whitespace run can precede it. -/
def whyLook (t : List Char) : Bool :=
  startsWithCI "Ticker:".data (t.drop (wsLen t)) || endLook t

/-- An ASCII letter of either case: what `[A-Z]` matches once the pattern
is compiled with `re.IGNORECASE`. -/
def isAsciiLetter (c : Char) : Bool :=
  (decide ('a' ≤ c) && decide (c ≤ 'z')) || (decide ('A' ≤ c) && decide (c ≤ 'Z'))

/-- Body of `Ticker:\s*([A-Z]{1,5})` under `re.IGNORECASE`: the character
class also matches lowercase letters; `{1,5}` is greedy with nothing
following, so it captures `min 5` of the letter run, requiring at least
one. -/
def tickerBody (cs : List Char) : Option (List Char) :=
  if cs.takeWhile isAsciiLetter = [] then none
  else some ((cs.takeWhile isAsciiLetter).take 5)

/-- Body of `Sector:\s*(.+?)(?=$)`: at least one non-newline character,
then lazy expansion until `$`. -/
def sectorBody : List Char → Option (List Char)
  | [] => none
  | c :: rest =>
    if c = '\n' then none
    else
      match lazyDotUntil endLook rest with
      | some (g, _) => some (c :: g)
      | none => none

/-- Search for `Recommendation:\s*(Buy|Sell|Hold)` (IGNORECASE). -/
def recSearch (s : String) : Option (List Char) :=
  searchFrom (attemptLabeled "Recommendation:".data
    (matchAltCI ["Buy".data, "Sell".data, "Hold".data])) s.data

/-- Search for `Confidence:\s*(Low|Medium|High)` (IGNORECASE). -/
def confSearch (s : String) : Option (List Char) :=
  searchFrom (attemptLabeled "Confidence:".data
    (matchAltCI ["Low".data, "Medium".data, "High".data])) s.data

/-- Search for `Risk:\s*(Low|Medium|High)` (IGNORECASE). -/
def riskSearch (s : String) : Option (List Char) :=
  searchFrom (attemptLabeled "Risk:".data
    (matchAltCI ["Low".data, "Medium".data, "High".data])) s.data

/-- Search for `Why:\s*(.*?)(?=\s*Ticker:|$)` (IGNORECASE); returns the
group together with the suffix at which the lookahead fired. -/
def whySearch (s : String) : Option (List Char × List Char) :=
  searchFrom (attemptLabeled "Why:".data (lazyDotUntil whyLook)) s.data

/-- Search for `Ticker:\s*([A-Z]{1,5})` (IGNORECASE). -/
def tickerSearch (s : String) : Option (List Char) :=
  searchFrom (attemptLabeled "Ticker:".data tickerBody) s.data

/-- Search for `Sector:\s*(.+?)(?=$)` (IGNORECASE). -/
def sectorSearch (s : String) : Option (List Char) :=
  searchFrom (attemptLabeled "Sector:".data sectorBody) s.data

/-- `match.group(1).strip() if match else "N/A"` — the value stored for a
field. -/
def fieldValue : Option (List Char) → String
  | some g => String.mk (pyStrip g)
  | none => "N/A"

/-- Parsed `Recommendation` field. -/
def recOf (s : String) : String := fieldValue (recSearch s)

/-- Parsed `Confidence` field. -/
def confOf (s : String) : String := fieldValue (confSearch s)

/-- Parsed `Risk` field. -/
def riskOf (s : String) : String := fieldValue (riskSearch s)

/-- Parsed `Why` field. -/
def whyOf (s : String) : String := fieldValue ((whySearch s).map Prod.fst)

/-- Parsed `Ticker` field. -/
def tickerOf (s : String) : String := fieldValue (tickerSearch s)

/-- Parsed `Sector` field. -/
def sectorOf (s : String) : String := fieldValue (sectorSearch s)

/-- `TradingBot._parse_analysis`: builds the result dict with the six keys
in the source's insertion order, each bound to the first match's first
group (stripped) or the sentinel `"N/A"`. -/
def parse_analysis (content : String) : List (String × String) :=
  [("Recommendation", recOf content),
   ("Confidence", confOf content),
   ("Risk", riskOf content),
   ("Why", whyOf content),
   ("Ticker", tickerOf content),
   ("Sector", sectorOf content)]

/-!
## Items and fingerprints
-/

/-- A feed item as consumed by the pipeline. `none` models an absent JSON
key (`article.get(...)` then yields Python `None`, respectively `''` with
an explicit default). Only `title` and `description` enter the
fingerprint; the remaining fields exist to state that they are
irrelevant to it. -/
structure Article where
  title : Option String
  description : Option String
  url : Option String
  publishedAt : Option String
  sourceName : Option String
deriving DecidableEq

/-- The string `f"{article.get('title', '')}{article.get('description', '')}"`
hashed by `_generate_article_id`. -/
def articleContent (a : Article) : String :=
  a.title.getD "" ++ a.description.getD ""

/-- `TradingBot._generate_article_id`: the md5 hex digest of the plain
concatenation of title and description.  The digest itself is computed by
the external `hashlib` library, modelled as the pure oracle `hash`. -/
def generate_article_id (hash : String → String) (a : Article) : String :=
  hash (articleContent a)

/-!
## Per-article processing and the run loop

`_analyze_article` performs one request to the remote analyzer and, on any
failure, returns `None`; on success it returns `_parse_analysis` of the
completion text.  The remote service is the oracle
`llm : String → Option String` (headline to raw completion text, `none`
for any caught failure).  `_send_telegram_message` swallows all request
errors, so delivery success never influences control flow; the oracle
`sendOk : Article → Bool` records the would-be delivery outcome in the
emitted event only.
-/

/-- Observable actions of one processing step: a call to the analyzer
(`_analyze_article`) and a notification attempt
(`_send_telegram_message`), the latter carrying the parsed analysis and
the delivery outcome. -/
inductive Event where
  | analyze (headline : String)
  | notify (a : Article) (analysis : List (String × String)) (delivered : Bool)
deriving DecidableEq

/-- `TradingBot._analyze_article` composed with the analyzer oracle. -/
def analyze_article (llm : String → Option String) (headline : String) :
    Option (List (String × String)) :=
  (llm headline).map parse_analysis

/-- `TradingBot._process_article`: dedup check, headline truthiness check,
analyze, filter on the parsed Ticker, notify and mark.  Returns the
emitted events and the dedup set after the call. -/
def process_article (hash : String → String) (llm : String → Option String)
    (sendOk : Article → Bool) (st : Finset String) (a : Article) :
    List Event × Finset String :=
  if generate_article_id hash a ∈ st then ([], st)
  else
    match a.title with
    | none => ([], st)
    | some h =>
      if h = "" then ([], st)
      else
        match llm h with
        | none => ([Event.analyze h], st)
        | some raw =>
          if tickerOf raw ≠ "N/A" then
            ([Event.analyze h,
              Event.notify a (parse_analysis raw) (sendOk a)],
             insert (generate_article_id hash a) st)
          else ([Event.analyze h], st)

/-- One cycle's `for article in articles: self._process_article(article)`. -/
def process_cycle (hash : String → String) (llm : String → Option String)
    (sendOk : Article → Bool) : Finset String → List Article → List Event × Finset String
  | st, [] => ([], st)
  | st, a :: rest =>
    ((process_article hash llm sendOk st a).1 ++
       (process_cycle hash llm sendOk (process_article hash llm sendOk st a).2 rest).1,
     (process_cycle hash llm sendOk (process_article hash llm sendOk st a).2 rest).2)

/-- The run loop of `TradingBot.run`, observed for a finite number of
cycles: each cycle processes the batch the fetcher returned for it
(the per-cycle fetch results are the input list). -/
def run_cycles (hash : String → String) (llm : String → Option String)
    (sendOk : Article → Bool) : Finset String → List (List Article) → List Event × Finset String
  | st, [] => ([], st)
  | st, c :: rest =>
    ((process_cycle hash llm sendOk st c).1 ++
       (run_cycles hash llm sendOk (process_cycle hash llm sendOk st c).2 rest).1,
     (run_cycles hash llm sendOk (process_cycle hash llm sendOk st c).2 rest).2)

/-- Is an event a notification attempt? -/
def isNotify : Event → Bool
  | Event.notify _ _ _ => true
  | _ => false

/-- Number of notification attempts in a trace. -/
def notifierCalls (tr : List Event) : Nat := tr.countP isNotify

/-- Number of notification attempts in a trace for articles whose
fingerprint is `f`. -/
def notifyCount (hash : String → String) (f : String) (tr : List Event) : Nat :=
  tr.countP fun e =>
    match e with
    | Event.notify a _ _ => decide (generate_article_id hash a = f)
    | _ => false

/-- The accept path of `_process_article`: fingerprint not yet in the
store, truthy headline, analysis present, parsed Ticker not the
sentinel. -/
def accept_path (hash : String → String) (llm : String → Option String)
    (st : Finset String) (a : Article) : Bool :=
  if generate_article_id hash a ∈ st then false
  else
    match a.title with
    | none => false
    | some h =>
      if h = "" then false
      else
        match llm h with
        | none => false
        | some raw => tickerOf raw ≠ "N/A"

/-!
## Source fetcher
-/

/-- Outcome of one HTTP attempt against the feed: `failure` is a network
error or non-2xx status (`raise_for_status`); `response b` is a parsed
JSON body whose `articles` field is `b` (`none` when the field is missing
or not an array). -/
inductive FetchOutcome where
  | failure
  | response (articlesField : Option (List Article))
deriving DecidableEq

/-- One attempt of `_fetch_news_for_category`'s body: raises on network
failure/non-2xx, raises `ValueError` on a malformed body, otherwise
returns the articles list. -/
def attempt_fetch : FetchOutcome → Except Unit (List Article)
  | FetchOutcome.failure => Except.error ()
  | FetchOutcome.response none => Except.error ()
  | FetchOutcome.response (some arts) => Except.ok arts

/-- `TradingBot._fetch_news_for_category` under
`@retry(stop=stop_after_attempt(3), ..., reraise=True)`: up to three
attempts, the third failure re-raised to the caller.  The oracle
`outcomes` gives the result of the i-th attempt. -/
def fetch_news_for_category (outcomes : Nat → FetchOutcome) : Except Unit (List Article) :=
  match attempt_fetch (outcomes 0) with
  | Except.ok a => Except.ok a
  | Except.error _ =>
    match attempt_fetch (outcomes 1) with
    | Except.ok a => Except.ok a
    | Except.error _ => attempt_fetch (outcomes 2)

/-- `wait_exponential(multiplier=1, min=2, max=10)`: the pause before a
retry, exponential in the attempt index and clamped to [2, 10]. -/
def wait_exponential_2_10 (n : Nat) : Nat := min 10 (max 2 (2 ^ n))

/-- `TradingBot._fetch_news`: iterate the configured categories in order,
fetch each with retry, log-and-skip a category whose retries are
exhausted, and concatenate the successful results. -/
def fetch_news (oracle : String → Nat → FetchOutcome) : List String → List Article
  | [] => []
  | c :: rest =>
    (match fetch_news_for_category (oracle c) with
     | Except.ok arts => arts
     | Except.error _ => []) ++ fetch_news oracle rest

/-!
## Persisted dedup store
-/

/-- `"\n".join(tokens)` at character level. -/
def joinNl : List (List Char) → List Char
  | [] => []
  | [t] => t
  | t :: u :: ts => t ++ '\n' :: joinNl (u :: ts)

/-- Split a file's characters into lines at `'\n'` (what iterating a
Python file handle yields, up to the trailing newline that `strip`
removes anyway). -/
def splitNl : List Char → List (List Char)
  | [] => [[]]
  | c :: cs =>
    if c = '\n' then [] :: splitNl cs
    else
      match splitNl cs with
      | [] => [[c]]
      | l :: ls => (c :: l) :: ls

/-- The file content `_save_processed_articles` writes:
`"\n".join(self.processed_articles)` over some enumeration of the set. -/
def store_file_content (tokens : List String) : String :=
  String.mk (joinNl (tokens.map String.data))

/-- The set `_load_processed_articles` builds from a readable file:
`{line.strip() for line in f if line.strip()}`. -/
def parse_store_file (content : String) : Finset String :=
  (((splitNl content.data).map fun cs => String.mk (pyStrip cs)).filter
    fun s => decide (s ≠ "")).toFinset

/-- How the backing file presents itself on load: absent, present but
unreadable (any `OSError` other than `FileNotFoundError`), or readable
with the given content. -/
inductive LoadOutcome where
  | missing
  | unreadable
  | content (s : String)

/-- `TradingBot._load_processed_articles`: only `FileNotFoundError` is
caught (logged as a warning, in-memory set left as it is — the empty set
at startup); any other exception propagates to the caller.  `run` calls
this before entering its `try`-protected loop, so a propagated exception
terminates the run. -/
def load_processed_articles (o : LoadOutcome) (current : Finset String) :
    Except Unit (Finset String) :=
  match o with
  | LoadOutcome.missing => Except.ok current
  | LoadOutcome.unreadable => Except.error ()
  | LoadOutcome.content s => Except.ok (parse_store_file s)

/-- `TradingBot._save_processed_articles`: writes the joined tokens; every
exception is caught and logged.  Returns the in-memory set after the call
(the method never touches it) and the file content written, `none` when
the write failed. -/
def save_processed_articles (writeOk : Bool) (st : Finset String)
    (enum : List String) : Finset String × Option String :=
  (st, if writeOk then some (store_file_content enum) else none)

/-!
## Lemmas about the pattern matchers
-/

theorem searchFrom_some {α : Type} {attempt : List Char → Option α} {r : α} :
    ∀ {cs : List Char}, searchFrom attempt cs = some r → ∃ t, attempt t = some r := by
  intro cs
  induction cs with
  | nil => intro h; exact ⟨[], h⟩
  | cons c cs ih =>
    intro h
    rw [searchFrom] at h
    cases ha : attempt (c :: cs) with
    | some r' => rw [ha] at h; exact ⟨c :: cs, ha.trans h⟩
    | none => rw [ha] at h; exact ih h

theorem tryWsFrom_some {α : Type} {body : List Char → Option α} {cs : List Char} {r : α} :
    ∀ {k : Nat}, tryWsFrom body cs k = some r → ∃ j, body (cs.drop j) = some r := by
  intro k
  induction k with
  | zero => intro h; exact ⟨0, by simpa using h⟩
  | succ k ih =>
    intro h
    rw [tryWsFrom] at h
    cases hb : body (cs.drop (k + 1)) with
    | some r' => rw [hb] at h; exact ⟨k + 1, hb.trans h⟩
    | none => rw [hb] at h; exact ih h

theorem attemptLabeled_some {α : Type} {label : List Char} {body : List Char → Option α}
    {cs : List Char} {r : α} (h : attemptLabeled label body cs = some r) :
    ∃ u, body u = some r := by
  rw [attemptLabeled] at h
  by_cases hs : startsWithCI label cs = true
  · rw [if_pos hs] at h
    obtain ⟨j, hj⟩ := tryWsFrom_some h
    exact ⟨(cs.drop label.length).drop j, hj⟩
  · rw [if_neg hs] at h; exact absurd h (by simp)

theorem search_labeled_some {α : Type} {label : List Char} {body : List Char → Option α}
    {cs : List Char} {r : α} (h : searchFrom (attemptLabeled label body) cs = some r) :
    ∃ u, body u = some r := by
  obtain ⟨t, ht⟩ := searchFrom_some h
  exact attemptLabeled_some ht

theorem matchAltCI_some : ∀ {alts : List (List Char)} {cs g : List Char},
    matchAltCI alts cs = some g →
    ∃ a, a ∈ alts ∧ startsWithCI a cs = true ∧ g = cs.take a.length := by
  intro alts
  induction alts with
  | nil => intro cs g h; exact absurd h (by simp [matchAltCI])
  | cons a rest ih =>
    intro cs g h
    rw [matchAltCI] at h
    by_cases hs : startsWithCI a cs = true
    · rw [if_pos hs] at h
      exact ⟨a, List.mem_cons_self a rest, hs, (Option.some_injective _ h).symm⟩
    · rw [if_neg hs] at h
      obtain ⟨a', ha', hs', hg⟩ := ih h
      exact ⟨a', List.mem_cons_of_mem a ha', hs', hg⟩

theorem startsWithCI_take : ∀ {p cs : List Char}, startsWithCI p cs = true →
    (cs.take p.length).map Char.toLower = p.map Char.toLower := by
  intro p
  induction p with
  | nil => intro cs _; simp
  | cons x p ih =>
    intro cs h
    cases cs with
    | nil => exact absurd h (by simp [startsWithCI])
    | cons c cs =>
      rw [startsWithCI, Bool.and_eq_true, decide_eq_true_eq] at h
      simp only [List.length_cons, List.take_succ_cons, List.map_cons]
      rw [ih h.2, h.1]

theorem isPySpace_cases {c : Char} (h : isPySpace c = true) :
    c = ' ' ∨ c = '\t' ∨ c = '\n' ∨ c = '\r' ∨ c = '\x0b' ∨ c = '\x0c' := by
  simp only [isPySpace, Bool.or_eq_true, decide_eq_true_eq] at h
  tauto

theorem ws_toLower_self {c : Char} (h : isPySpace c = true) : c.toLower = c := by
  rcases isPySpace_cases h with h | h | h | h | h | h <;> rw [h] <;> decide

theorem ws_not_letter {c : Char} (h : isPySpace c = true) : isAsciiLetter c = false := by
  rcases isPySpace_cases h with h | h | h | h | h | h <;> rw [h] <;> decide

theorem no_ws_of_lower_eq {g w : List Char} (h : g.map Char.toLower = w.map Char.toLower)
    (hw : ∀ x ∈ w.map Char.toLower, isPySpace x = false) :
    ∀ c ∈ g, isPySpace c = false := by
  intro c hc
  by_contra hcs
  rw [Bool.not_eq_false] at hcs
  have h1 : c.toLower ∈ w.map Char.toLower := h ▸ List.mem_map_of_mem Char.toLower hc
  have h2 : isPySpace c.toLower = false := hw _ h1
  rw [ws_toLower_self hcs, hcs] at h2
  exact absurd h2 (by simp)

theorem wsLen_zero {cs : List Char} (h : ∀ c ∈ cs, isPySpace c = false) : wsLen cs = 0 := by
  cases cs with
  | nil => rfl
  | cons c cs => rw [wsLen, h c (List.mem_cons_self c cs)]; rfl

theorem pyStrip_id {cs : List Char} (h : ∀ c ∈ cs, isPySpace c = false) : pyStrip cs = cs := by
  have h1 : stripLeftWs cs = cs := by rw [stripLeftWs, wsLen_zero h, List.drop_zero]
  have h2 : ∀ c ∈ cs.reverse, isPySpace c = false := fun c hc => h c (List.mem_reverse.mp hc)
  rw [pyStrip, h1, stripLeftWs, wsLen_zero h2, List.drop_zero, List.reverse_reverse]

theorem lazyDotUntil_some {look : List Char → Bool} :
    ∀ {cs g t : List Char}, lazyDotUntil look cs = some (g, t) →
    look t = true ∧ ∀ c ∈ g, c ≠ '\n' := by
  intro cs
  induction cs with
  | nil =>
    intro g t h
    rw [lazyDotUntil] at h
    by_cases hl : look [] = true
    · rw [if_pos hl] at h
      obtain ⟨rfl, rfl⟩ : g = [] ∧ t = [] := by
        have := Option.some_injective _ h
        exact ⟨congrArg Prod.fst this.symm, congrArg Prod.snd this.symm⟩
      exact ⟨hl, by simp⟩
    · rw [if_neg hl] at h; exact absurd h (by simp)
  | cons c rest ih =>
    intro g t h
    rw [lazyDotUntil] at h
    by_cases hl : look (c :: rest) = true
    · rw [if_pos hl] at h
      obtain ⟨rfl, rfl⟩ : g = [] ∧ t = c :: rest := by
        have := Option.some_injective _ h
        exact ⟨congrArg Prod.fst this.symm, congrArg Prod.snd this.symm⟩
      exact ⟨hl, by simp⟩
    · rw [if_neg hl] at h
      by_cases hn : c = '\n'
      · rw [if_pos hn] at h; exact absurd h (by simp)
      · rw [if_neg hn] at h
        cases hrec : lazyDotUntil look rest with
        | none => rw [hrec] at h; exact absurd h (by simp)
        | some p =>
          obtain ⟨g', t'⟩ := p
          rw [hrec] at h
          obtain ⟨rfl, rfl⟩ : g = c :: g' ∧ t = t' := by
            have := Option.some_injective _ h
            exact ⟨congrArg Prod.fst this.symm, congrArg Prod.snd this.symm⟩
          obtain ⟨h1, h2⟩ := ih hrec
          refine ⟨h1, fun d hd => ?_⟩
          rcases List.mem_cons.mp hd with rfl | hd'
          · exact hn
          · exact h2 d hd'

/-- Lower-cased copy of a string (to state case-insensitive membership). -/
def lowerStr (s : String) : String := String.mk (s.data.map Char.toLower)

theorem alt_search_value {label : List Char} {alts : List (List Char)} {cs g : List Char}
    (h : searchFrom (attemptLabeled label (matchAltCI alts)) cs = some g)
    (hws : ∀ a ∈ alts, ∀ x ∈ a.map Char.toLower, isPySpace x = false) :
    ∃ a, a ∈ alts ∧ (pyStrip g).map Char.toLower = a.map Char.toLower := by
  obtain ⟨u, hu⟩ := search_labeled_some h
  obtain ⟨a, ha, hs, hg⟩ := matchAltCI_some hu
  have hlow : g.map Char.toLower = a.map Char.toLower := hg ▸ startsWithCI_take hs
  have hnw : ∀ c ∈ g, isPySpace c = false := no_ws_of_lower_eq hlow (hws a ha)
  rw [pyStrip_id hnw]
  exact ⟨a, ha, hlow⟩

theorem tickerBody_shape {cs g : List Char} (h : tickerBody cs = some g) :
    (∀ c ∈ g, isAsciiLetter c = true) ∧ 1 ≤ g.length ∧ g.length ≤ 5 := by
  rw [tickerBody] at h
  by_cases hr : cs.takeWhile isAsciiLetter = []
  · rw [if_pos hr] at h; exact absurd h (by simp)
  · rw [if_neg hr] at h
    have hg : g = (cs.takeWhile isAsciiLetter).take 5 := (Option.some_injective _ h).symm
    subst hg
    refine ⟨fun c hc => List.mem_takeWhile_imp (List.take_subset 5 _ hc), ?_, ?_⟩
    · have := List.length_pos.mpr hr
      rw [List.length_take]; omega
    · rw [List.length_take]; omega

theorem letters_no_ws {g : List Char} (h : ∀ c ∈ g, isAsciiLetter c = true) :
    ∀ c ∈ g, isPySpace c = false := by
  intro c hc
  by_contra hcs
  rw [Bool.not_eq_false] at hcs
  have := ws_not_letter hcs
  rw [h c hc] at this
  exact absurd this (by simp)

theorem lookup_unique : ∀ (r : List (String × String)), (r.map Prod.fst).Nodup →
    ∀ k v v', (k, v) ∈ r → (k, v') ∈ r → v = v' := by
  intro r
  induction r with
  | nil => intro _ k v v' hv; exact absurd hv (by simp)
  | cons p rest ih =>
    intro hnd k v v' hv hv'
    rw [List.map_cons, List.nodup_cons] at hnd
    rcases List.mem_cons.mp hv with h1 | h1 <;> rcases List.mem_cons.mp hv' with h2 | h2
    · exact congrArg Prod.snd (h1.trans h2.symm)
    · have hk1 : k = p.1 := congrArg Prod.fst h1
      exact absurd (List.mem_map.mpr ⟨(k, v'), h2, hk1⟩) hnd.1
    · have hk2 : k = p.1 := congrArg Prod.fst h2
      exact absurd (List.mem_map.mpr ⟨(k, v), h1, hk2⟩) hnd.1
    · exact ih hnd.2 k v v' h1 h2

/-- Claim C4: for every input string `parse` terminates without failing
(the model is a total function, as `re.search` never raises) and returns
a mapping with exactly the six keys Recommendation, Confidence, Risk,
Why, Ticker, Sector in that order, each bound to a single string — an
extracted value or the sentinel — with no key absent and no key bound
twice. -/
theorem c4_theorem (s : String) :
    (parse_analysis s).map Prod.fst =
      ["Recommendation", "Confidence", "Risk", "Why", "Ticker", "Sector"]
  ∧ ∀ k v v', (k, v) ∈ parse_analysis s → (k, v') ∈ parse_analysis s → v = v' := by
  constructor
  · rfl
  · apply lookup_unique
    show (["Recommendation", "Confidence", "Risk", "Why", "Ticker", "Sector"] :
      List String).Nodup
    decide

/-- Witness for C4 at the empty input string. -/
theorem c4_witness :
    (parse_analysis "").map Prod.fst =
      ["Recommendation", "Confidence", "Risk", "Why", "Ticker", "Sector"] ∧
    ("N/A" : String) = "N/A" :=
  ⟨( c4_theorem "").1,
   ( c4_theorem "").2 "Recommendation" "N/A" "N/A" (by decide) (by decide)⟩

/-- Claim C5 (amended): a non-sentinel field value always satisfies its
extraction pattern — Recommendation is Buy/Sell/Hold case-insensitively,
Confidence and Risk are Low/Medium/High case-insensitively, and a
non-sentinel Ticker is a string of 1 to 5 ASCII letters of either case
(not necessarily uppercase: the `[A-Z]` class is compiled with
`re.IGNORECASE`, so lowercase letters match as well). -/
theorem c5_theorem (s : String) :
    (recOf s ≠ "N/A" →
      lowerStr (recOf s) = "buy" ∨ lowerStr (recOf s) = "sell" ∨ lowerStr (recOf s) = "hold")
  ∧ (confOf s ≠ "N/A" →
      lowerStr (confOf s) = "low" ∨ lowerStr (confOf s) = "medium" ∨
        lowerStr (confOf s) = "high")
  ∧ (riskOf s ≠ "N/A" →
      lowerStr (riskOf s) = "low" ∨ lowerStr (riskOf s) = "medium" ∨
        lowerStr (riskOf s) = "high")
  ∧ (tickerOf s ≠ "N/A" →
      (tickerOf s).data.all isAsciiLetter = true ∧
        1 ≤ (tickerOf s).length ∧ (tickerOf s).length ≤ 5) := by
  refine ⟨fun h => ?_, fun h => ?_, fun h => ?_, fun h => ?_⟩
  · rw [recOf] at h ⊢
    cases hs : recSearch s with
    | none => rw [hs] at h; exact absurd rfl h
    | some g =>
      obtain ⟨a, ha, hl⟩ := alt_search_value (hs : searchFrom _ _ = some g) (by decide)
      rcases (by simpa using ha :
          a = "Buy".data ∨ a = "Sell".data ∨ a = "Hold".data) with rfl | rfl | rfl
      · left; rw [lowerStr]; simp only [fieldValue]; rw [hl]; rfl
      · right; left; rw [lowerStr]; simp only [fieldValue]; rw [hl]; rfl
      · right; right; rw [lowerStr]; simp only [fieldValue]; rw [hl]; rfl
  · rw [confOf] at h ⊢
    cases hs : confSearch s with
    | none => rw [hs] at h; exact absurd rfl h
    | some g =>
      obtain ⟨a, ha, hl⟩ := alt_search_value (hs : searchFrom _ _ = some g) (by decide)
      rcases (by simpa using ha :
          a = "Low".data ∨ a = "Medium".data ∨ a = "High".data) with rfl | rfl | rfl
      · left; rw [lowerStr]; simp only [fieldValue]; rw [hl]; rfl
      · right; left; rw [lowerStr]; simp only [fieldValue]; rw [hl]; rfl
      · right; right; rw [lowerStr]; simp only [fieldValue]; rw [hl]; rfl
  · rw [riskOf] at h ⊢
    cases hs : riskSearch s with
    | none => rw [hs] at h; exact absurd rfl h
    | some g =>
      obtain ⟨a, ha, hl⟩ := alt_search_value (hs : searchFrom _ _ = some g) (by decide)
      rcases (by simpa using ha :
          a = "Low".data ∨ a = "Medium".data ∨ a = "High".data) with rfl | rfl | rfl
      · left; rw [lowerStr]; simp only [fieldValue]; rw [hl]; rfl
      · right; left; rw [lowerStr]; simp only [fieldValue]; rw [hl]; rfl
      · right; right; rw [lowerStr]; simp only [fieldValue]; rw [hl]; rfl
  · rw [tickerOf] at h ⊢
    cases hs : tickerSearch s with
    | none => rw [hs] at h; exact absurd rfl h
    | some g =>
      obtain ⟨u, hu⟩ := search_labeled_some (hs : searchFrom _ _ = some g)
      obtain ⟨hlet, h1, h5⟩ := tickerBody_shape hu
      have hid : pyStrip g = g := pyStrip_id (letters_no_ws hlet)
      simp only [fieldValue, hid]
      refine ⟨List.all_eq_true.mpr fun c hc => hlet c hc, ?_, ?_⟩
      · show 1 ≤ g.length; exact h1
      · show g.length ≤ 5; exact h5

/-- Counterexample for C5 as stated: `"Ticker: ab"` parses to the
non-sentinel Ticker value `"ab"`, which is not a string of uppercase
letters — `[A-Z]` combined with `re.IGNORECASE` accepts lowercase. -/
theorem c5_counterexample :
    tickerOf "Ticker: ab" = "ab" ∧ ("ab" : String) ≠ "N/A" ∧
    ("ab".data.all fun c => decide ('A' ≤ c) && decide (c ≤ 'Z')) = false := by
  refine ⟨by decide, by decide, by decide⟩

/-- Witness for C5 on an input where all four constrained fields are
non-sentinel. -/
theorem c5_witness :
    (lowerStr (recOf "Recommendation: buy\nConfidence: HIGH\nRisk: low\nTicker: Ab") = "buy" ∨
     lowerStr (recOf "Recommendation: buy\nConfidence: HIGH\nRisk: low\nTicker: Ab") = "sell" ∨
     lowerStr (recOf "Recommendation: buy\nConfidence: HIGH\nRisk: low\nTicker: Ab") = "hold")
  ∧ (lowerStr (confOf "Recommendation: buy\nConfidence: HIGH\nRisk: low\nTicker: Ab") = "low" ∨
     lowerStr (confOf "Recommendation: buy\nConfidence: HIGH\nRisk: low\nTicker: Ab") = "medium" ∨
     lowerStr (confOf "Recommendation: buy\nConfidence: HIGH\nRisk: low\nTicker: Ab") = "high")
  ∧ (lowerStr (riskOf "Recommendation: buy\nConfidence: HIGH\nRisk: low\nTicker: Ab") = "low" ∨
     lowerStr (riskOf "Recommendation: buy\nConfidence: HIGH\nRisk: low\nTicker: Ab") = "medium" ∨
     lowerStr (riskOf "Recommendation: buy\nConfidence: HIGH\nRisk: low\nTicker: Ab") = "high")
  ∧ ((tickerOf "Recommendation: buy\nConfidence: HIGH\nRisk: low\nTicker: Ab").data.all
        isAsciiLetter = true ∧
     1 ≤ (tickerOf "Recommendation: buy\nConfidence: HIGH\nRisk: low\nTicker: Ab").length ∧
     (tickerOf "Recommendation: buy\nConfidence: HIGH\nRisk: low\nTicker: Ab").length ≤ 5) :=
  ⟨( c5_theorem "Recommendation: buy\nConfidence: HIGH\nRisk: low\nTicker: Ab").1 (by decide),
   ( c5_theorem "Recommendation: buy\nConfidence: HIGH\nRisk: low\nTicker: Ab").2.1 (by decide),
   ( c5_theorem "Recommendation: buy\nConfidence: HIGH\nRisk: low\nTicker: Ab").2.2.1 (by decide),
   ( c5_theorem "Recommendation: buy\nConfidence: HIGH\nRisk: low\nTicker: Ab").2.2.2 (by decide)⟩

theorem whySearch_shape {s : String} {g t : List Char} (h : whySearch s = some (g, t)) :
    whyLook t = true ∧ ∀ c ∈ g, c ≠ '\n' := by
  rw [whySearch] at h
  obtain ⟨u, hu⟩ := search_labeled_some h
  exact lazyDotUntil_some hu

/-- Counterexample for C6 as stated: on `"Why: a Sector: Tech"` the Why
value is `"a Sector: Tech"` — it swallows the `Sector:` label (which the
parser does recognize on the same input, extracting Sector = `"Tech"`),
because the Why pattern's lookahead only recognizes `Ticker:` or the end
of the text, not every field label. -/
theorem c6_counterexample :
    whyOf "Why: a Sector: Tech" = "a Sector: Tech" ∧
    sectorOf "Why: a Sector: Tech" = "Tech" := by
  refine ⟨by decide, by decide⟩

/-- Claim C6 (amended): the Why value never contains a newline and its
match stops exactly at a position where optional whitespace followed by
the `Ticker:` label begins, or at the end of the text (`$`); labels other
than `Ticker:` do not terminate it.  On the claim's example input the
Why field equals exactly `"strong fundamentals"`. -/
theorem c6_theorem :
    whyOf "Recommendation: Buy\nWhy: strong fundamentals\nTicker: ABCD\nSector: Tech" =
      "strong fundamentals"
  ∧ ∀ (s : String) (g t : List Char), whySearch s = some (g, t) →
      whyLook t = true ∧ ∀ c ∈ g, c ≠ '\n' :=
  ⟨by decide, fun _ _ _ h => whySearch_shape h⟩

/-- Witness for C6's general part on the claim's example input. -/
theorem c6_witness :
    whyLook "\nTicker: ABCD\nSector: Tech".data = true ∧
    ∀ c ∈ "strong fundamentals".data, c ≠ '\n' :=
  c6_theorem.2 "Recommendation: Buy\nWhy: strong fundamentals\nTicker: ABCD\nSector: Tech"
    "strong fundamentals".data "\nTicker: ABCD\nSector: Tech".data (by decide)

/-!
## Dedup/notification invariants of the orchestrator
-/

theorem notifyCount_append (hash : String → String) (f : String) (t1 t2 : List Event) :
    notifyCount hash f (t1 ++ t2) = notifyCount hash f t1 + notifyCount hash f t2 :=
  List.countP_append _ _ _

theorem notifyCount_pair (hash : String → String) (f h : String) (a : Article)
    (an : List (String × String)) (d : Bool) :
    notifyCount hash f [Event.analyze h, Event.notify a an d] =
      if generate_article_id hash a = f then 1 else 0 := by
  simp only [notifyCount, List.countP_cons, List.countP_nil]
  by_cases hg : generate_article_id hash a = f
  · simp [hg]
  · simp [hg]

/-- Invariant of one orchestrator step starting from store `st`,
emitting trace `tr` and ending in store `st'`: the store only grows, `f`
is notified at most once, and a notification of `f` happens only when
`f` was absent from the store and leaves it present. -/
def StepInv (hash : String → String) (f : String) (st : Finset String)
    (tr : List Event) (st' : Finset String) : Prop :=
  st ⊆ st' ∧ notifyCount hash f tr ≤ 1 ∧
    (1 ≤ notifyCount hash f tr → f ∉ st ∧ f ∈ st')

theorem stepInv_still (hash : String → String) (f : String) (st : Finset String)
    (tr : List Event) (h : notifyCount hash f tr = 0) : StepInv hash f st tr st := by
  refine ⟨Finset.Subset.refl st, ?_, ?_⟩ <;> simp [h]

theorem stepInv_process_article (hash : String → String) (llm : String → Option String)
    (sendOk : Article → Bool) (f : String) (st : Finset String) (a : Article) :
    StepInv hash f st (process_article hash llm sendOk st a).1
      (process_article hash llm sendOk st a).2 := by
  by_cases hmem : generate_article_id hash a ∈ st
  · have hv : process_article hash llm sendOk st a = ([], st) := by
      simp [process_article, hmem]
    rw [hv]; exact stepInv_still hash f st [] rfl
  · cases ht : a.title with
    | none =>
      have hv : process_article hash llm sendOk st a = ([], st) := by
        simp [process_article, hmem, ht]
      rw [hv]; exact stepInv_still hash f st [] rfl
    | some h =>
      by_cases hne : h = ""
      · have hv : process_article hash llm sendOk st a = ([], st) := by
          simp [process_article, hmem, ht, hne]
        rw [hv]; exact stepInv_still hash f st [] rfl
      · cases hllm : llm h with
        | none =>
          have hv : process_article hash llm sendOk st a = ([Event.analyze h], st) := by
            simp [process_article, hmem, ht, hne, hllm]
          rw [hv]; exact stepInv_still hash f st [Event.analyze h] rfl
        | some raw =>
          by_cases htick : tickerOf raw ≠ "N/A"
          · have hv : process_article hash llm sendOk st a =
                ([Event.analyze h,
                  Event.notify a (parse_analysis raw) (sendOk a)],
                 insert (generate_article_id hash a) st) := by
              simp [process_article, hmem, ht, hne, hllm, htick]
            rw [hv]
            refine ⟨Finset.subset_insert _ _, ?_, ?_⟩
            · show notifyCount hash f [Event.analyze h,
                Event.notify a (parse_analysis raw) (sendOk a)] ≤ 1
              rw [notifyCount_pair]; split_ifs <;> omega
            · intro hc
              rw [show ([Event.analyze h,
                  Event.notify a (parse_analysis raw) (sendOk a)],
                  insert (generate_article_id hash a) st).1 =
                  [Event.analyze h,
                   Event.notify a (parse_analysis raw) (sendOk a)] from rfl,
                notifyCount_pair] at hc
              split_ifs at hc with hgf
              · exact ⟨hgf ▸ hmem, hgf ▸ Finset.mem_insert_self _ _⟩
              · exact absurd hc (by omega)
          · have htick' : tickerOf raw = "N/A" := not_ne_iff.mp htick
            have hv : process_article hash llm sendOk st a = ([Event.analyze h], st) := by
              simp [process_article, hmem, ht, hne, hllm, htick']
            rw [hv]; exact stepInv_still hash f st [Event.analyze h] rfl

theorem stepInv_comp {hash : String → String} {f : String} {st st1 st2 : Finset String}
    {tr1 tr2 : List Event} (h1 : StepInv hash f st tr1 st1)
    (h2 : StepInv hash f st1 tr2 st2) : StepInv hash f st (tr1 ++ tr2) st2 := by
  obtain ⟨hs1, hc1, hi1⟩ := h1
  obtain ⟨hs2, hc2, hi2⟩ := h2
  have hx : notifyCount hash f tr1 = 0 ∨ notifyCount hash f tr2 = 0 := by
    by_contra hc
    push_neg at hc
    obtain ⟨n1, n2⟩ := hc
    have g1 := hi1 (by omega)
    have g2 := hi2 (by omega)
    exact g2.1 g1.2
  refine ⟨hs1.trans hs2, ?_, ?_⟩
  · rw [notifyCount_append]
    rcases hx with h | h <;> rw [h] <;> omega
  · intro hsum
    rw [notifyCount_append] at hsum
    rcases hx with h | h
    · obtain ⟨hn, hm⟩ := hi2 (by omega)
      exact ⟨fun hf => hn (hs1 hf), hm⟩
    · obtain ⟨hn, hm⟩ := hi1 (by omega)
      exact ⟨hn, hs2 hm⟩

theorem stepInv_cycle (hash : String → String) (llm : String → Option String)
    (sendOk : Article → Bool) (f : String) :
    ∀ (arts : List Article) (st : Finset String),
      StepInv hash f st (process_cycle hash llm sendOk st arts).1
        (process_cycle hash llm sendOk st arts).2 := by
  intro arts
  induction arts with
  | nil => intro st; exact stepInv_still hash f st [] rfl
  | cons a rest ih =>
    intro st
    exact stepInv_comp (stepInv_process_article hash llm sendOk f st a)
      (ih (process_article hash llm sendOk st a).2)

theorem stepInv_run (hash : String → String) (llm : String → Option String)
    (sendOk : Article → Bool) (f : String) :
    ∀ (css : List (List Article)) (st : Finset String),
      StepInv hash f st (run_cycles hash llm sendOk st css).1
        (run_cycles hash llm sendOk st css).2 := by
  intro css
  induction css with
  | nil => intro st; exact stepInv_still hash f st [] rfl
  | cons c rest ih =>
    intro st
    exact stepInv_comp (stepInv_cycle hash llm sendOk f c st)
      (ih (process_cycle hash llm sendOk st c).2)

/-- Counterexample for C1 as stated: the same item (title "X",
description "Y"), whose analysis parses to an all-sentinel result, is
processed in two successive cycles; the trace shows the analyzer is
called twice for the same fingerprint (the claim allows at most one
analysis per fingerprint) and zero notification attempts are issued (the
claim demands exactly one), because an item that fails the Ticker filter
is never marked processed. -/
theorem c1_counterexample :
    run_cycles (fun s => s) (fun _ => some "") (fun _ => true) ∅
      [[Article.mk (some "X") (some "Y") none none none],
       [Article.mk (some "X") (some "Y") none none none]] =
    ([Event.analyze "X", Event.analyze "X"], ∅) := by decide

/-- Claim C1 (amended): across a whole run started with the empty store,
every fingerprint receives at most one notification attempt; after a
notification for a fingerprint, it is a member of the store; and an
article whose fingerprint is already in the store is skipped entirely
(no analysis, no notification, store unchanged) — so re-analysis is
possible only for items that were never notified (absent analysis result
or sentinel Ticker), which are deliberately left unmarked. -/
theorem c1_theorem (hash : String → String) (llm : String → Option String)
    (sendOk : Article → Bool) (css : List (List Article)) (f : String) :
    notifyCount hash f (run_cycles hash llm sendOk ∅ css).1 ≤ 1
  ∧ (1 ≤ notifyCount hash f (run_cycles hash llm sendOk ∅ css).1 →
      f ∈ (run_cycles hash llm sendOk ∅ css).2)
  ∧ ∀ (st : Finset String) (a : Article), generate_article_id hash a ∈ st →
      process_article hash llm sendOk st a = ([], st) := by
  obtain ⟨hs, hc, hi⟩ := stepInv_run hash llm sendOk f css ∅
  exact ⟨hc, fun h => (hi h).2, fun st a hmem => by simp [process_article, hmem]⟩

/-- Witness for C1: a run in which the item is accepted in cycle one and
skipped in cycle two; its fingerprint (under an identity hash oracle) is
in the store afterwards. -/
theorem c1_witness :
    "h" ∈ (run_cycles (fun s => s) (fun _ => some "Ticker: AAPL") (fun _ => true) ∅
      [[Article.mk (some "h") none none none none],
       [Article.mk (some "h") none none none none]]).2 :=
  (c1_theorem (fun s => s) (fun _ => some "Ticker: AAPL") (fun _ => true)
    [[Article.mk (some "h") none none none none],
     [Article.mk (some "h") none none none none]] "h").2.1 (by decide)

/-- Claim C2: the fingerprint is added exactly when the accept path is
taken (not already in the store, truthy headline, analysis present,
parsed Ticker not the sentinel); on the accept path the trace is the
analyzer call followed by the send attempt, and the store update is the
insertion of the fingerprint; the store update is identical whatever the
send outcome oracle says (delivery success is swallowed inside the
sender); an absent analysis result leaves the item unmarked. -/
theorem c2_theorem (hash : String → String) (llm : String → Option String)
    (sendOk : Article → Bool) (st : Finset String) (a : Article) :
    ((process_article hash llm sendOk st a).2 =
      if accept_path hash llm st a = true
      then insert (generate_article_id hash a) st else st)
  ∧ (accept_path hash llm st a = true → ∃ h raw, a.title = some h ∧ llm h = some raw ∧
      (process_article hash llm sendOk st a).1 =
        [Event.analyze h, Event.notify a (parse_analysis raw) (sendOk a)])
  ∧ (∀ sk sk' : Article → Bool,
      (process_article hash llm sk st a).2 = (process_article hash llm sk' st a).2)
  ∧ (∀ h, a.title = some h → h ≠ "" → generate_article_id hash a ∉ st → llm h = none →
      process_article hash llm sendOk st a = ([Event.analyze h], st)) := by
  by_cases hmem : generate_article_id hash a ∈ st
  · refine ⟨?_, ?_, ?_, ?_⟩
    · simp [process_article, accept_path, hmem]
    · intro hacc; rw [accept_path, if_pos hmem] at hacc; exact absurd hacc (by simp)
    · intro sk sk'; simp [process_article, hmem]
    · intro h _ _ hmem' _; exact absurd hmem hmem'
  · cases ht : a.title with
    | none =>
      refine ⟨?_, ?_, ?_, ?_⟩
      · simp [process_article, accept_path, hmem, ht]
      · intro hacc; simp [accept_path, hmem, ht] at hacc
      · intro sk sk'; simp [process_article, hmem, ht]
      · intro h hth; exact absurd hth (by simp)
    | some h =>
      by_cases hne : h = ""
      · subst hne
        refine ⟨?_, ?_, ?_, ?_⟩
        · simp [process_article, accept_path, hmem, ht]
        · intro hacc; simp [accept_path, hmem, ht] at hacc
        · intro sk sk'; simp [process_article, hmem, ht]
        · intro h' hth hne'
          exact absurd (Option.some_injective _ hth).symm hne'
      · cases hllm : llm h with
        | none =>
          refine ⟨?_, ?_, ?_, ?_⟩
          · simp [process_article, accept_path, hmem, ht, hne, hllm]
          · intro hacc; simp [accept_path, hmem, ht, hne, hllm] at hacc
          · intro sk sk'; simp [process_article, hmem, ht, hne, hllm]
          · intro h' hth _ _ _
            have he : h = h' := Option.some_injective _ hth
            subst he
            simp [process_article, hmem, ht, hne, hllm]
        | some raw =>
          by_cases htick : tickerOf raw ≠ "N/A"
          · refine ⟨?_, ?_, ?_, ?_⟩
            · simp [process_article, accept_path, hmem, ht, hne, hllm, htick]
            · intro _
              exact ⟨h, raw, rfl, hllm,
                by simp [process_article, hmem, ht, hne, hllm, htick]⟩
            · intro sk sk'; simp [process_article, hmem, ht, hne, hllm, htick]
            · intro h' hth _ _ hl
              have he : h = h' := Option.some_injective _ hth
              subst he
              rw [hllm] at hl
              exact absurd hl (by simp)
          · have htick' : tickerOf raw = "N/A" := not_ne_iff.mp htick
            refine ⟨?_, ?_, ?_, ?_⟩
            · simp [process_article, accept_path, hmem, ht, hne, hllm, htick']
            · intro hacc; simp [accept_path, hmem, ht, hne, hllm, htick'] at hacc
            · intro sk sk'; simp [process_article, hmem, ht, hne, hllm, htick']
            · intro h' hth _ _ hl
              have he : h = h' := Option.some_injective _ hth
              subst he
              rw [hllm] at hl
              exact absurd hl (by simp)

/-- Witness for C2 on an accepted article: the trace is analyze-then-send
and the store gains the fingerprint. -/
theorem c2_witness :
    ∃ h raw, (Article.mk (some "h") none none none none).title = some h ∧
      (fun _ : String => some "Ticker: AAPL") h = some raw ∧
      (process_article (fun s => s) (fun _ => some "Ticker: AAPL") (fun _ => true) ∅
        (Article.mk (some "h") none none none none)).1 =
        [Event.analyze h,
         Event.notify (Article.mk (some "h") none none none none) (parse_analysis raw) true] :=
  (c2_theorem (fun s => s) (fun _ => some "Ticker: AAPL") (fun _ => true) ∅
    (Article.mk (some "h") none none none none)).2.1 (by decide)

/-- Claim C3: for an article whose analysis result exists, a sentinel
Ticker (`"N/A"`) never yields a Notifier call; and for a new article
(fingerprint not in the store) with a non-empty headline, the Notifier is
called exactly once precisely when the parsed Ticker is not the sentinel
— the Ticker test is the sole rule gating notification at that point. -/
theorem c3_theorem (hash : String → String) (llm : String → Option String)
    (sendOk : Article → Bool) (st : Finset String) (a : Article) (h raw : String)
    (hth : a.title = some h) (hraw : llm h = some raw) :
    (tickerOf raw = "N/A" → notifierCalls (process_article hash llm sendOk st a).1 = 0)
  ∧ (generate_article_id hash a ∉ st → h ≠ "" →
      (notifierCalls (process_article hash llm sendOk st a).1 = 1 ↔
        tickerOf raw ≠ "N/A")) := by
  constructor
  · intro hna
    by_cases hmem : generate_article_id hash a ∈ st
    · simp [process_article, hmem, notifierCalls]
    · by_cases hne : h = ""
      · subst hne
        simp [process_article, hmem, hth, notifierCalls]
      · simp [process_article, hmem, hth, hne, hraw, hna, notifierCalls, isNotify,
          List.countP_cons]
  · intro hmem hne
    constructor
    · intro h1
      by_contra htick
      simp [process_article, hmem, hth, hne, hraw, htick, notifierCalls, isNotify,
        List.countP_cons] at h1
    · intro htick
      simp [process_article, hmem, hth, hne, hraw, htick, notifierCalls, isNotify,
        List.countP_cons]

/-- Witness for C3: a new article with non-empty headline whose analysis
has Ticker "AAPL" produces exactly one Notifier call. -/
theorem c3_witness :
    notifierCalls (process_article (fun s => s) (fun _ => some "Ticker: AAPL")
      (fun _ => true) ∅ (Article.mk (some "x") none none none none)).1 = 1 :=
  ((c3_theorem (fun s => s) (fun _ => some "Ticker: AAPL") (fun _ => true) ∅
      (Article.mk (some "x") none none none none) "x" "Ticker: AAPL"
      (by decide) (by decide)).2 (by decide) (by decide)).mpr (by decide)

/-!
## Fetcher properties
-/

/-- Claim C7: each category is fetched independently with at most three
attempts (only outcomes 0, 1, 2 are ever consulted); the backoff before
each retry lies between 2 and 10 time-units; a malformed body (missing
or non-array `articles` field) is a retryable failure, so a malformed
first attempt followed by a good second attempt succeeds; a category
whose three attempts all fail contributes zero items without aborting
the remaining categories; `fetch_news` is total (all per-category
failures are caught) and returns the concatenation of the successful
categories' items in category-iteration order. -/
theorem c7_theorem (oracle : String → Nat → FetchOutcome) (cats : List String) :
    (fetch_news oracle cats = (cats.map fun c =>
      ((fetch_news_for_category (oracle c)).toOption.getD [])).flatten)
  ∧ (∀ o o' : Nat → FetchOutcome, (∀ i, i < 3 → o i = o' i) →
      fetch_news_for_category o = fetch_news_for_category o')
  ∧ (∀ (o : Nat → FetchOutcome) (arts : List Article),
      o 0 = FetchOutcome.response none → o 1 = FetchOutcome.response (some arts) →
      fetch_news_for_category o = Except.ok arts)
  ∧ (∀ o : Nat → FetchOutcome, o 0 = FetchOutcome.response none →
      attempt_fetch (o 0) = Except.error ())
  ∧ (∀ n, 2 ≤ wait_exponential_2_10 n ∧ wait_exponential_2_10 n ≤ 10)
  ∧ (∀ (c : String) (rest : List String),
      fetch_news_for_category (oracle c) = Except.error () →
      fetch_news oracle (c :: rest) = fetch_news oracle rest) := by
  refine ⟨?_, ?_, ?_, ?_, ?_, ?_⟩
  · induction cats with
    | nil => rfl
    | cons c rest ih =>
      rw [fetch_news, ih, List.map_cons, List.flatten]
      cases fetch_news_for_category (oracle c) with
      | ok arts => rfl
      | error e => rfl
  · intro o o' h
    rw [fetch_news_for_category, fetch_news_for_category,
      h 0 (by omega), h 1 (by omega), h 2 (by omega)]
  · intro o arts h0 h1
    rw [fetch_news_for_category, h0, h1]
    rfl
  · intro o h0
    rw [h0]
    rfl
  · intro n
    constructor
    · exact le_min (by norm_num) (le_max_left 2 (2 ^ n))
    · exact min_le_left 10 _
  · intro c rest h
    rw [fetch_news, h]
    rfl

/-- Witness for C7: the first category fails all attempts and is skipped;
the second succeeds and its items are returned. -/
theorem c7_witness :
    fetch_news (fun c _ => if c = "a" then FetchOutcome.failure
        else FetchOutcome.response (some [])) ["a", "b"] =
      fetch_news (fun c _ => if c = "a" then FetchOutcome.failure
        else FetchOutcome.response (some [])) ["b"] :=
  (c7_theorem (fun c _ => if c = "a" then FetchOutcome.failure
      else FetchOutcome.response (some [])) ["a", "b"]).2.2.2.2.2 "a" ["b"] (by rfl)

/-!
## Persistence round-trip and resource failures
-/

theorem splitNl_ne_nil : ∀ cs : List Char, splitNl cs ≠ [] := by
  intro cs
  induction cs with
  | nil => simp [splitNl]
  | cons c rest ih =>
    rw [splitNl]
    by_cases hn : c = '\n'
    · rw [if_pos hn]; simp
    · rw [if_neg hn]
      cases hs : splitNl rest with
      | nil => exact absurd hs ih
      | cons l ls => simp

theorem splitNl_append : ∀ (t cs : List Char) (l : List Char) (ls : List (List Char)),
    (∀ c ∈ t, c ≠ '\n') → splitNl cs = l :: ls → splitNl (t ++ cs) = (t ++ l) :: ls := by
  intro t
  induction t with
  | nil => intro cs l ls _ h; simpa using h
  | cons c t ih =>
    intro cs l ls hnl h
    have hc : c ≠ '\n' := hnl c (List.mem_cons_self c t)
    rw [List.cons_append, splitNl, if_neg hc,
      ih cs l ls (fun d hd => hnl d (List.mem_cons_of_mem c hd)) h]
    rfl

theorem splitNl_joinNl : ∀ ts : List (List Char), ts ≠ [] →
    (∀ t ∈ ts, ∀ c ∈ t, c ≠ '\n') → splitNl (joinNl ts) = ts := by
  intro ts
  induction ts with
  | nil => intro h; exact absurd rfl h
  | cons t rest ih =>
    intro _ hnl
    cases rest with
    | nil =>
      rw [joinNl]
      have := splitNl_append t [] [] [] (hnl t (List.mem_cons_self t []))
        (by rw [splitNl])
      simpa using this
    | cons u rest' =>
      rw [joinNl]
      have hrec : splitNl (joinNl (u :: rest')) = u :: rest' :=
        ih (by simp) (fun x hx => hnl x (List.mem_cons_of_mem t hx))
      have hcons : splitNl ('\n' :: joinNl (u :: rest')) = [] :: u :: rest' := by
        rw [splitNl, if_pos rfl, hrec]
      have := splitNl_append t ('\n' :: joinNl (u :: rest')) [] (u :: rest')
        (hnl t (List.mem_cons_self t _)) hcons
      simpa using this

theorem toFinset_of_perm {l l' : List String} (hp : l.Perm l') :
    l.toFinset = l'.toFinset := by
  apply Finset.ext
  intro a
  rw [List.mem_toFinset, List.mem_toFinset]
  exact ⟨fun h => hp.mem_iff.mp h, fun h => hp.mem_iff.mpr h⟩

/-- Claim C8: for a finite set of non-empty, whitespace-free fingerprint
tokens (given as the duplicate-free enumeration `l`), writing the store
file from any reordering `l'` of the tokens and re-loading it yields a
set equal to the original. -/
theorem c8_theorem (l l' : List String)
    (hl : ∀ t ∈ l, t ≠ "" ∧ ∀ c ∈ t.data, isPySpace c = false)
    (hp : l.Perm l') :
    parse_store_file (store_file_content l') = l.toFinset := by
  have hl' : ∀ t ∈ l', t ≠ "" ∧ ∀ c ∈ t.data, isPySpace c = false :=
    fun t ht => hl t (hp.mem_iff.mpr ht)
  cases hl'nil : l' with
  | nil =>
    have hl0 : l = [] := (hl'nil ▸ hp).eq_nil
    subst hl0
    decide
  | cons u us =>
    subst hl'nil
    have hsplit : splitNl (joinNl ((u :: us).map String.data)) = (u :: us).map String.data := by
      apply splitNl_joinNl _ (by simp)
      intro t ht c hc
      obtain ⟨w, hw, rfl⟩ := List.mem_map.mp ht
      intro hcn
      have := (hl' w hw).2 c hc
      rw [hcn] at this
      exact absurd this (by decide)
    have hmap : ((u :: us).map String.data).map (fun cs => String.mk (pyStrip cs)) =
        u :: us := by
      rw [List.map_map]
      apply List.map_congr_left ?_ |>.trans (List.map_id _)
      intro w hw
      show String.mk (pyStrip w.data) = w
      rw [pyStrip_id ((hl' w hw).2)]
    rw [parse_store_file, store_file_content]
    rw [show (String.mk (joinNl ((u :: us).map String.data))).data =
      joinNl ((u :: us).map String.data) from rfl]
    rw [hsplit, hmap]
    rw [List.filter_eq_self.mpr ?_]
    · exact (toFinset_of_perm hp).symm
    · intro s hs
      exact decide_eq_true ((hl' s hs).1)

/-- Witness for C8: saving `{"abc123", "def456"}` in the reversed
enumeration order and reloading yields exactly that set. -/
theorem c8_witness :
    parse_store_file (store_file_content ["def456", "abc123"]) =
      (["abc123", "def456"] : List String).toFinset :=
  c8_theorem ["abc123", "def456"] ["def456", "abc123"] (by decide) (by decide)

/-- Counterexample for C9 as stated: a present-but-unreadable state file
on load is not tolerated — only `FileNotFoundError` is caught in
`_load_processed_articles`, so any other `OSError` propagates; `run`
invokes the load before entering its try-protected loop, so the
exception terminates the run rather than being logged and survived. -/
theorem c9_counterexample :
    load_processed_articles LoadOutcome.unreadable ∅ = Except.error () := rfl

/-- Claim C9 (amended): a missing state file on load is logged and
non-fatal, leaving the in-memory set unchanged (the empty set at
startup); a readable file loads its parsed token set; any failure to
write during save is caught, leaving the in-memory set unchanged and
authoritative; but a present-yet-unreadable file on load raises an
uncaught exception that escapes the loader and terminates the run. -/
theorem c9_theorem :
    (∀ st : Finset String, load_processed_articles LoadOutcome.missing st = Except.ok st)
  ∧ (∀ (s : String) (st : Finset String),
      load_processed_articles (LoadOutcome.content s) st = Except.ok (parse_store_file s))
  ∧ (∀ (w : Bool) (st : Finset String) (enum : List String),
      (save_processed_articles w st enum).1 = st)
  ∧ (∀ st : Finset String,
      load_processed_articles LoadOutcome.unreadable st = Except.error ()) :=
  ⟨fun _ => rfl, fun _ _ => rfl, fun _ _ _ => rfl, fun _ => rfl⟩

/-- Claim C10: the fingerprint is a function of the plain concatenation
of title and description only — articles with equal concatenations get
equal fingerprints under any digest oracle, the remaining item fields
are irrelevant, and in particular title "AB" with description "C"
collides with title "A" with description "BC". -/
theorem c10_theorem :
    (∀ (hash : String → String) (a1 a2 : Article),
      articleContent a1 = articleContent a2 →
      generate_article_id hash a1 = generate_article_id hash a2)
  ∧ (∀ (hash : String → String) (t d u p sn u' p' sn' : Option String),
      generate_article_id hash (Article.mk t d u p sn) =
        generate_article_id hash (Article.mk t d u' p' sn'))
  ∧ (∀ hash : String → String,
      generate_article_id hash (Article.mk (some "AB") (some "C") none none none) =
        generate_article_id hash (Article.mk (some "A") (some "BC") none none none)) :=
  ⟨fun hash _ _ h => congrArg hash h,
   fun _ _ _ _ _ _ _ _ _ => rfl,
   fun hash => congrArg hash (by decide)⟩

/-- Witness for C10: the boundary-collapsing pair under the identity
digest oracle. -/
theorem c10_witness :
    generate_article_id (fun s => s) (Article.mk (some "AB") (some "C") none none none) =
      generate_article_id (fun s => s) (Article.mk (some "A") (some "BC") none none none) :=
  c10_theorem.1 (fun s => s) (Article.mk (some "AB") (some "C") none none none)
    (Article.mk (some "A") (some "BC") none none none) (by decide)
